import Mathlib

/-!
Shallow embedding of `src/fuzzySearcher.py` (class `FuzzySearcher`).

Python strings are modelled as `List Char`; Python `dict`/`defaultdict`
objects (which preserve key insertion order and, for `defaultdict`,
insert the default value on a read of an absent key) are modelled as
association lists in insertion order, with a read-with-default operation
`dgetD` that returns the possibly extended table together with the value
read.  Python list indexing out of bounds (`IndexError`) is modelled by
`Option`: the scan functions return `none` exactly when the source would
raise.
-/

namespace FuzzySearch

abbrev Word := List Char

section AList

variable {α : Type} {β : Type} [DecidableEq α]

/-- First-match lookup in an association list, as Python `d[k]` /
`k in d` on a dict whose keys are unique. -/
def alookup : List (α × β) → α → Option β
  | [], _ => none
  | (k, v) :: rest, key => if key = k then some v else alookup rest key

/-- Python `d[k] = v`: overwrite in place when the key exists, else
append the new key at the end (dict insertion order). -/
def aset : List (α × β) → α → β → List (α × β)
  | [], key, val => [(key, val)]
  | (k, v) :: rest, key, val =>
    if key = k then (k, val) :: rest else (k, v) :: aset rest key val

/-- Models `defaultdict.__getitem__`: return the stored value, or insert the
default (at the end, in insertion order) and return it when the key is
absent.  The first component is the table after the read. -/
def dgetD (d : List (α × β)) (key : α) (default : β) : List (α × β) × β :=
  match alookup d key with
  | some v => (d, v)
  | none => (d ++ [(key, default)], default)

end AList

section Distinct

variable {α : Type} [DecidableEq α]

/-- Distinct elements of a list in first-occurrence order (the key order
of a Python `Counter`/`dict` built by insertion). -/
def firstDistinctAux : List α → List α → List α
  | [], _ => []
  | c :: rest, seen =>
    if c ∈ seen then firstDistinctAux rest seen
    else c :: firstDistinctAux rest (c :: seen)

def firstDistinct (l : List α) : List α := firstDistinctAux l []

end Distinct

/-- Models `Counter(word).items()`: the distinct letters of `word` in
first-occurrence order, each with its positive occurrence count. -/
def counterItems (w : Word) : List (Char × Nat) :=
  (firstDistinct w).map (fun c => (c, w.count c))

/-- Models `range(a, b)` of given length starting at `a`. -/
def pyrangeLen : Nat → Nat → List Nat
  | _, 0 => []
  | a, n + 1 => a :: pyrangeLen (a + 1) n

/-- Python `range(a, b)`. -/
def pyrange (a b : Nat) : List Nat := pyrangeLen a (b - a)

/-- The engine state: `highestLetterInWordCount` (a `defaultdict(int)`
from letter to highest seen count), `allWords` (a `defaultdict(list)`
from the `"letter-count"` key, modelled as the isomorphic `Char × Nat`
pair, to the bucket of words having exactly that count of that letter),
and the `settings` dict, holding its `tolerance` entry when present. -/
structure FuzzySearcher where
  highestLetterInWordCount : List (Char × Nat)
  allWords : List ((Char × Nat) × List Word)
  settings_tolerance : Option Nat

/-- One iteration of the constructor's inner loop
(`for k, v in Counter(word).items()`): append `word` to the bucket
`(k, v)` and raise `highestLetterInWordCount[k]` to `v` when larger
(lines 50-53 of the source; both container reads go through the
defaultdict read-with-default). -/
def initItem (word : Word) (st : FuzzySearcher) (kv : Char × Nat) : FuzzySearcher :=
  let g := dgetD st.allWords kv []
  let aw2 := aset g.1 kv (g.2 ++ [word])
  let h := dgetD st.highestLetterInWordCount kv.1 0
  { st with
    allWords := aw2
    highestLetterInWordCount := if kv.2 > h.2 then aset h.1 kv.1 kv.2 else h.1 }

/-- The constructor's outer loop body: index one word. -/
def initWord (st : FuzzySearcher) (word : Word) : FuzzySearcher :=
  (counterItems word).foldl (initItem word) st

/-- Models `FuzzySearcher.__init__(words)`: empty tables, default settings
`{'tolerance': 5}`, then index every word in order. -/
def FuzzySearcher.mk' (words : List Word) : FuzzySearcher :=
  words.foldl initWord ⟨[], [], some 5⟩

/-- Models `candidates[word] += 1` on the `defaultdict(int)` of credits. -/
def dincr (cands : List (Word × Nat)) (w : Word) : List (Word × Nat) :=
  let g := dgetD cands w 0
  aset g.1 w (g.2 + 1)

/-- One iteration of `getAllSearchCandidates`' outer loop, for one
`(key, value)` item of the query's `Counter`: read
`highestLetterInWordCount[key]` (a defaultdict read, which may insert a
zero entry), then for every `amount in range(value, highest + 1)` whose
bucket exists, credit every word of that bucket.  The state is the
max-count table together with the credits dict. -/
def queryStep (aw : List ((Char × Nat) × List Word))
    (acc : List (Char × Nat) × List (Word × Nat)) (kv : Char × Nat) :
    List (Char × Nat) × List (Word × Nat) :=
  let g := dgetD acc.1 kv.1 0
  (g.1,
   (pyrange kv.2 (g.2 + 1)).foldl (fun cands amount =>
      match alookup aw (kv.1, amount) with
      | none => cands
      | some bucket => bucket.foldl dincr cands) acc.2)

/-- Models `getAllSearchCandidates(searchLetters)` (lines 83-92): accumulate
credits per word over the query's counter items, then keep the words
whose credit equals the number of distinct query letters.  Returns the
engine after the call (the max-count defaultdict may have gained zero
entries) together with the returned list. -/
def FuzzySearcher.getAllSearchCandidates (self : FuzzySearcher) (searchLetters : Word) :
    FuzzySearcher × List Word :=
  let items := counterItems searchLetters
  let acc := items.foldl (queryStep self.allWords) (self.highestLetterInWordCount, [])
  ({ self with highestLetterInWordCount := acc.1 },
   (acc.2.filter (fun p => decide (p.2 = items.length))).map Prod.fst)

/-- The greedy scan of `FuzzySearcher.filter` over one candidate
(lines 126-132): walk the candidate's letters, advancing a pointer into
`searchLetters` on each match; `some true` when the pointer reaches the
end of the query, `some false` when the candidate is exhausted first,
`none` when `searchLetters[upto]` would raise an `IndexError`. -/
def scanExact (searchLetters : Word) : Word → Nat → Option Bool
  | [], _ => some false
  | l :: rest, upto =>
    match searchLetters.get? upto with
    | none => none
    | some qc =>
      if l = qc then
        if upto + 1 = searchLetters.length then some true
        else scanExact searchLetters rest (upto + 1)
      else scanExact searchLetters rest upto

/-- Models `FuzzySearcher.filter(candidates, searchLetters)` (lines 124-133):
keep, in candidate order, the candidates whose greedy scan succeeds;
`none` when some scan raises. -/
def FuzzySearcher.filter (candidates : List Word) (searchLetters : Word) :
    Option (List Word) :=
  match candidates with
  | [] => some []
  | c :: cs =>
    match scanExact searchLetters c 0 with
    | none => none
    | some true => (FuzzySearcher.filter cs searchLetters).map (fun r => c :: r)
    | some false => FuzzySearcher.filter cs searchLetters

/-- The greedy scan of `lessFuzzyFilter` over one candidate
(lines 169-183), with state `(dist, upto, greatest)` for
`distanceWithNoMatch`, `uptoInSearchLetters`,
`greatestDistanceWithNoMatch`.  `some (some s)` means the candidate
passes with score `s` (worst mismatch run), `some none` that it fails,
`none` that `searchLetters[upto]` would raise. -/
def scanTol (searchLetters : Word) (tolerance : Nat) :
    Word → Nat → Nat → Nat → Option (Option Nat)
  | [], _, _, _ => some none
  | l :: rest, dist, upto, greatest =>
    match searchLetters.get? upto with
    | none => none
    | some qc =>
      if l = qc then
        if upto + 1 = searchLetters.length then some (some greatest)
        else scanTol searchLetters tolerance rest 0 (upto + 1) greatest
      else
        if dist + 1 > tolerance then some none
        else scanTol searchLetters tolerance rest (dist + 1) upto (max greatest (dist + 1))

/-- The scored pass list of `lessFuzzyFilter`: each passing candidate,
in candidate order, paired with its score (the entries of the
`passingCandidates` defaultdict, flattened in insertion order). -/
def scoredCandidates (candidates : List Word) (searchLetters : Word) (tolerance : Nat) :
    Option (List (Word × Nat)) :=
  match candidates with
  | [] => some []
  | c :: cs =>
    match scanTol searchLetters tolerance c 0 0 0 with
    | none => none
    | some none => scoredCandidates cs searchLetters tolerance
    | some (some s) =>
      (scoredCandidates cs searchLetters tolerance).map (fun r => (c, s) :: r)

/-- Insert into an ascending list; `sortNats` is Python's
`sorted(keys)` on the (distinct) score keys. -/
def insortNat (x : Nat) : List Nat → List Nat
  | [] => [x]
  | y :: ys => if x ≤ y then x :: y :: ys else y :: insortNat x ys

def sortNats (l : List Nat) : List Nat := l.foldr insortNat []

/-- Models `FuzzySearcher.lessFuzzyFilter(candidates, searchLetters, tolerance)`
(lines 136-188): score the candidates, then emit, for each distinct
score in ascending order (`for key in sorted(passingCandidates.keys())`),
the candidates of that score in their original order
(`results.extend(passingCandidates[key])`). -/
def FuzzySearcher.lessFuzzyFilter (candidates : List Word) (searchLetters : Word)
    (tolerance : Nat) : Option (List Word) :=
  (scoredCandidates candidates searchLetters tolerance).map (fun scored =>
    (sortNats (firstDistinct (scored.map Prod.snd))).flatMap
      (fun s => (scored.filter (fun p => decide (p.2 = s))).map Prod.fst))

/-- Models `FuzzySearcher.search(searchLetters)` (lines 217-220): get the
candidates, then dispatch on whether the settings dict holds a
`tolerance` entry. -/
def FuzzySearcher.search (self : FuzzySearcher) (searchLetters : Word) :
    FuzzySearcher × Option (List Word) :=
  let res := self.getAllSearchCandidates searchLetters
  match res.1.settings_tolerance with
  | none => (res.1, FuzzySearcher.filter res.2 searchLetters)
  | some t => (res.1, FuzzySearcher.lessFuzzyFilter res.2 searchLetters t)

/-- Bucket of the index for a `(letter, count)` key, with the
defaultdict's absent-key-reads-as-empty view. -/
def lookupBucket (aw : List ((Char × Nat) × List Word)) (key : Char × Nat) : List Word :=
  (alookup aw key).getD []

/-- Max-count table lookup with the defaultdict's absent-key-reads-as-0
view. -/
def lookupMax (hc : List (Char × Nat)) (L : Char) : Nat :=
  (alookup hc L).getD 0

def FuzzySearcher.bucketD (st : FuzzySearcher) (key : Char × Nat) : List Word :=
  lookupBucket st.allWords key

def FuzzySearcher.hval (st : FuzzySearcher) (L : Char) : Nat :=
  lookupMax st.highestLetterInWordCount L

/-- Credit read of the per-query `candidates` defaultdict. -/
def cval (cands : List (Word × Nat)) (w : Word) : Nat :=
  (alookup cands w).getD 0

/-- Number of distinct letters of the query
(`len(searchLetterCounter)`). -/
def numDistinct (q : Word) : Nat := (counterItems q).length

/-- How many distinct query letters the word `w` has enough occurrences
of. -/
def satisfied (w q : Word) : Nat :=
  (counterItems q).countP (fun kv => decide (kv.2 ≤ w.count kv.1))

/-- Whether `w` has at least as many occurrences of every distinct
query letter as the query itself. -/
def satisfiesAllLetters (w q : Word) : Bool :=
  (counterItems q).all (fun kv => decide (kv.2 ≤ w.count kv.1))

/-- The tolerance-scan score of a candidate, as a total function (0 for
failing or erroring candidates; on every passing candidate it is the
recorded worst mismatch run). -/
def scoreOf (q : Word) (t : Nat) (c : Word) : Nat :=
  match scanTol q t c 0 0 0 with
  | some (some s) => s
  | _ => 0

/-- Every stored credit is positive (a key enters the credits dict only
through an increment). -/
def CandPos (c : List (Word × Nat)) : Prop :=
  ∀ w v, alookup c w = some v → 1 ≤ v

section AListLemmas

variable {α : Type} {β : Type} [DecidableEq α]

@[simp] theorem alookup_nil (x : α) : alookup ([] : List (α × β)) x = none := rfl

@[simp] theorem alookup_cons (k : α) (v : β) (rest : List (α × β)) (x : α) :
    alookup ((k, v) :: rest) x = if x = k then some v else alookup rest x := rfl

@[simp] theorem aset_nil (k : α) (v : β) : aset ([] : List (α × β)) k v = [(k, v)] := rfl

@[simp] theorem aset_cons (k : α) (v : β) (rest : List (α × β)) (key : α) (val : β) :
    aset ((k, v) :: rest) key val =
      if key = k then (k, val) :: rest else (k, v) :: aset rest key val := rfl

theorem alookup_append_single (d : List (α × β)) (k : α) (v0 : β) (x : α) :
    alookup (d ++ [(k, v0)]) x =
      match alookup d x with
      | some v => some v
      | none => if x = k then some v0 else none := by
  induction d with
  | nil => simp
  | cons p rest ih =>
    obtain ⟨pk, pv⟩ := p
    by_cases hx : x = pk
    · simp [hx]
    · simp [hx, ih]

theorem alookup_aset_self (d : List (α × β)) (k : α) (v : β) :
    alookup (aset d k v) k = some v := by
  induction d with
  | nil => simp
  | cons p rest ih =>
    obtain ⟨pk, pv⟩ := p
    by_cases hx : k = pk
    · simp [hx]
    · simp [hx, ih]

theorem alookup_aset_ne (d : List (α × β)) (k : α) (v : β) (x : α) (h : x ≠ k) :
    alookup (aset d k v) x = alookup d x := by
  induction d with
  | nil => simp [h]
  | cons p rest ih =>
    obtain ⟨pk, pv⟩ := p
    by_cases hk : k = pk
    · subst hk
      simp [h]
    · by_cases hx : x = pk
      · simp [hk, hx]
      · simp [hk, hx, ih]

theorem dgetD_snd (d : List (α × β)) (key : α) (dflt : β) :
    (dgetD d key dflt).2 = (alookup d key).getD dflt := by
  unfold dgetD
  cases alookup d key <;> simp

theorem dgetD_ext (d : List (α × β)) (key : α) (dflt : β) (x : α) :
    (alookup (dgetD d key dflt).1 x).getD dflt = (alookup d x).getD dflt := by
  unfold dgetD
  cases hk : alookup d key with
  | some v => rfl
  | none =>
    rw [alookup_append_single]
    cases hx : alookup d x with
    | some v => simp
    | none =>
      by_cases hxk : x = key <;> simp [hxk]

theorem alookup_eq_none_iff (d : List (α × β)) (x : α) :
    alookup d x = none ↔ x ∉ d.map Prod.fst := by
  induction d with
  | nil => simp
  | cons p rest ih =>
    obtain ⟨pk, pv⟩ := p
    by_cases hx : x = pk <;> simp [hx, ih]

theorem mem_of_alookup_eq_some {d : List (α × β)} {x : α} {v : β}
    (h : alookup d x = some v) : (x, v) ∈ d := by
  induction d with
  | nil => simp at h
  | cons p rest ih =>
    obtain ⟨pk, pv⟩ := p
    by_cases hx : x = pk
    · subst hx
      simp at h
      simp [h]
    · simp [hx] at h
      simp [ih h]

theorem alookup_eq_some_of_mem {d : List (α × β)} {x : α} {v : β}
    (hnd : (d.map Prod.fst).Nodup) (h : (x, v) ∈ d) : alookup d x = some v := by
  induction d with
  | nil => simp at h
  | cons p rest ih =>
    obtain ⟨pk, pv⟩ := p
    simp only [List.map_cons, List.nodup_cons] at hnd
    rcases List.mem_cons.mp h with h1 | h1
    · obtain ⟨hx, hv⟩ := Prod.mk.inj h1
      subst hx; subst hv
      simp
    · have hx : x ≠ pk := by
        intro hx
        subst hx
        exact hnd.1 (List.mem_map.mpr ⟨(x, v), h1, rfl⟩)
      simp [hx, ih hnd.2 h1]

theorem keys_aset_of_mem {d : List (α × β)} {k : α} (v : β)
    (h : k ∈ d.map Prod.fst) : (aset d k v).map Prod.fst = d.map Prod.fst := by
  induction d with
  | nil => simp at h
  | cons p rest ih =>
    obtain ⟨pk, pv⟩ := p
    by_cases hk : k = pk
    · simp [hk]
    · simp only [List.map_cons, List.mem_cons] at h
      rcases h with h | h

      · exact absurd h hk
      · simp [hk, ih h]

theorem keys_aset_of_not_mem {d : List (α × β)} {k : α} (v : β)
    (h : k ∉ d.map Prod.fst) :
    (aset d k v).map Prod.fst = d.map Prod.fst ++ [k] := by
  induction d with
  | nil => simp
  | cons p rest ih =>
    obtain ⟨pk, pv⟩ := p
    simp only [List.map_cons, List.mem_cons] at h
    push_neg at h
    simp [h.1, ih h.2]

end AListLemmas

section DistinctLemmas

variable {α : Type} [DecidableEq α]

theorem mem_firstDistinctAux (l : List α) :
    ∀ seen x, x ∈ firstDistinctAux l seen ↔ x ∈ l ∧ x ∉ seen := by
  induction l with
  | nil => simp [firstDistinctAux]
  | cons c rest ih =>
    intro seen x
    by_cases hc : c ∈ seen
    · simp only [firstDistinctAux, if_pos hc, ih]
      constructor
      · rintro ⟨h1, h2⟩
        exact ⟨List.mem_cons_of_mem _ h1, h2⟩
      · rintro ⟨h1, h2⟩
        rcases List.mem_cons.mp h1 with h1 | h1
        · subst h1; exact absurd hc h2
        · exact ⟨h1, h2⟩
    · simp only [firstDistinctAux, if_neg hc, List.mem_cons, ih]
      constructor
      · rintro (h | ⟨h1, h2⟩)
        · subst h; exact ⟨Or.inl rfl, hc⟩
        · push_neg at h2
          exact ⟨Or.inr h1, h2.2⟩
      · rintro ⟨h1 | h1, h2⟩
        · exact Or.inl h1
        · by_cases hx : x = c
          · exact Or.inl hx
          · exact Or.inr ⟨h1, by simp [hx, h2]⟩

theorem nodup_firstDistinctAux (l : List α) :
    ∀ seen, (firstDistinctAux l seen).Nodup := by
  induction l with
  | nil => intro seen; simp [firstDistinctAux]
  | cons c rest ih =>
    intro seen
    by_cases hc : c ∈ seen
    · simpa [firstDistinctAux, hc] using ih seen
    · simp only [firstDistinctAux, if_neg hc, List.nodup_cons]
      refine ⟨fun hmem => ?_, ih _⟩
      have := (mem_firstDistinctAux rest (c :: seen) c).mp hmem
      exact this.2 (List.mem_cons_self c seen)

theorem mem_firstDistinct (l : List α) (x : α) : x ∈ firstDistinct l ↔ x ∈ l := by
  simp [firstDistinct, mem_firstDistinctAux]

theorem nodup_firstDistinct (l : List α) : (firstDistinct l).Nodup :=
  nodup_firstDistinctAux l []

end DistinctLemmas

theorem counterItems_keys (w : Word) : (counterItems w).map Prod.fst = firstDistinct w := by
  have h : ∀ l : List Char, ((l.map (fun c => (c, w.count c))).map Prod.fst) = l := by
    intro l
    induction l with
    | nil => rfl
    | cons a t ih => simp only [List.map_cons, ih]
  exact h (firstDistinct w)

theorem mem_counterItems (w : Word) (k : Char) (v : Nat) :
    (k, v) ∈ counterItems w ↔ k ∈ w ∧ v = w.count k := by
  simp only [counterItems, List.mem_map]
  constructor
  · rintro ⟨c, hc, heq⟩
    obtain ⟨h1, h2⟩ := Prod.mk.inj heq
    subst h1; subst h2
    exact ⟨(mem_firstDistinct w c).mp hc, rfl⟩
  · rintro ⟨h1, h2⟩
    exact ⟨k, (mem_firstDistinct w k).mpr h1, by simp [h2]⟩

theorem counterItems_pos (w : Word) : ∀ kv ∈ counterItems w, 1 ≤ kv.2 := by
  rintro ⟨k, v⟩ h
  obtain ⟨h1, h2⟩ := (mem_counterItems w k v).mp h
  subst h2
  simpa [Nat.succ_le_iff] using List.count_pos_iff.mpr h1

theorem counterItems_nil : counterItems [] = [] := rfl

theorem numDistinct_pos {q : Word} (h : q ≠ []) : 1 ≤ numDistinct q := by
  cases q with
  | nil => exact absurd rfl h
  | cons c rest =>
    simp only [numDistinct, counterItems, List.length_map]
    have : c ∈ firstDistinct (c :: rest) := (mem_firstDistinct _ _).mpr (List.mem_cons_self c rest)
    exact List.length_pos.mpr (List.ne_nil_of_mem this)

theorem sum_map_pyrangeLen_ite (c m : Nat) :
    ∀ len a, ((pyrangeLen a len).map (fun x => if x = c then m else 0)).sum
      = if a ≤ c ∧ c < a + len then m else 0 := by
  intro len
  induction len with
  | zero =>
    intro a
    simp only [pyrangeLen, List.map_nil, List.sum_nil]
    have h : ¬(a ≤ c ∧ c < a + 0) := by omega
    rw [if_neg h]
  | succ n ih =>
    intro a
    simp only [pyrangeLen, List.map_cons, List.sum_cons, ih (a + 1)]
    by_cases hac : a = c
    · subst hac
      have h1 : ¬(a + 1 ≤ a ∧ a < a + 1 + n) := by omega
      have h2 : a ≤ a ∧ a < a + (n + 1) := by omega
      rw [if_pos rfl, if_neg h1, if_pos h2]
      omega
    · have h3 : (a + 1 ≤ c ∧ c < a + 1 + n) ↔ (a ≤ c ∧ c < a + (n + 1)) := by omega
      rw [if_neg hac, Nat.zero_add, if_congr h3 rfl rfl]

theorem dgetD_fst_of_some {α β : Type} [DecidableEq α] {d : List (α × β)} {key : α}
    {v : β} (dflt : β) (h : alookup d key = some v) : (dgetD d key dflt).1 = d := by
  unfold dgetD
  rw [h]

theorem dgetD_fst_of_none {α β : Type} [DecidableEq α] {d : List (α × β)} {key : α}
    (dflt : β) (h : alookup d key = none) :
    (dgetD d key dflt).1 = d ++ [(key, dflt)] := by
  unfold dgetD
  rw [h]

theorem initItem_settings (word : Word) (st : FuzzySearcher) (kv : Char × Nat) :
    (initItem word st kv).settings_tolerance = st.settings_tolerance := rfl

theorem lookupBucket_initItem (word : Word) (st : FuzzySearcher) (kv key : Char × Nat) :
    lookupBucket (initItem word st kv).allWords key
      = lookupBucket st.allWords key ++ (if key = kv then [word] else []) := by
  simp only [initItem, lookupBucket]
  cases hk : alookup st.allWords kv with
  | some b =>
    rw [dgetD_fst_of_some [] hk, dgetD_snd, hk]
    by_cases hkey : key = kv
    · subst hkey
      rw [alookup_aset_self, if_pos rfl, hk]
      rfl
    · rw [alookup_aset_ne _ _ _ _ hkey, if_neg hkey, List.append_nil]
  | none =>
    rw [dgetD_fst_of_none [] hk, dgetD_snd, hk]
    by_cases hkey : key = kv
    · subst hkey
      rw [alookup_aset_self, if_pos rfl, hk]
      rfl
    · rw [alookup_aset_ne _ _ _ _ hkey, if_neg hkey, List.append_nil,
        alookup_append_single]
      cases hx : alookup st.allWords key with
      | some b2 => rfl
      | none => rw [if_neg hkey]

theorem lookupMax_initItem (word : Word) (st : FuzzySearcher) (kv : Char × Nat) (x : Char) :
    lookupMax (initItem word st kv).highestLetterInWordCount x
      = if x = kv.1 then max (lookupMax st.highestLetterInWordCount x) kv.2
        else lookupMax st.highestLetterInWordCount x := by
  simp only [initItem, lookupMax]
  cases hk : alookup st.highestLetterInWordCount kv.1 with
  | some u =>
    rw [dgetD_fst_of_some 0 hk, dgetD_snd, hk]
    by_cases hgt : kv.2 > u
    · rw [if_pos (by simpa using hgt)]
      by_cases hx : x = kv.1
      · subst hx
        rw [alookup_aset_self, if_pos rfl, hk]
        simp only [Option.getD_some]
        omega
      · rw [alookup_aset_ne _ _ _ _ hx, if_neg hx]
    · rw [if_neg (by simpa using hgt)]
      by_cases hx : x = kv.1
      · subst hx
        rw [if_pos rfl, hk]
        simp only [Option.getD_some]
        omega
      · rw [if_neg hx]
  | none =>
    rw [dgetD_fst_of_none 0 hk, dgetD_snd, hk]
    by_cases hgt : kv.2 > 0
    · rw [if_pos (by simpa using hgt)]
      by_cases hx : x = kv.1
      · subst hx
        rw [alookup_aset_self, if_pos rfl, hk]
        simp only [Option.getD_some, Option.getD_none]
        omega
      · rw [alookup_aset_ne _ _ _ _ hx, if_neg hx, alookup_append_single]
        cases hx2 : alookup st.highestLetterInWordCount x with
        | some u2 => rfl
        | none => rw [if_neg hx]
    · rw [if_neg (by simpa using hgt)]
      by_cases hx : x = kv.1
      · subst hx
        rw [if_pos rfl, hk, alookup_append_single, hk, if_pos rfl]
        simp only [Option.getD_some, Option.getD_none]
        omega
      · rw [if_neg hx, alookup_append_single]
        cases hx2 : alookup st.highestLetterInWordCount x with
        | some u2 => rfl
        | none => rw [if_neg hx]

theorem foldl_initItem_settings (word : Word) :
    ∀ (items : List (Char × Nat)) (st : FuzzySearcher),
    ((items.foldl (initItem word) st)).settings_tolerance = st.settings_tolerance := by
  intro items
  induction items with
  | nil => intro st; rfl
  | cons kv rest ih =>
    intro st
    rw [List.foldl_cons, ih, initItem_settings]

theorem foldl_initItem_bucket (word : Word) (key : Char × Nat) :
    ∀ (items : List (Char × Nat)) (st : FuzzySearcher),
    ((items.map Prod.fst).Nodup) →
    lookupBucket ((items.foldl (initItem word) st)).allWords key
      = lookupBucket st.allWords key ++ (if key ∈ items then [word] else []) := by
  intro items
  induction items with
  | nil => intro st _; simp
  | cons kv rest ih =>
    intro st hnd
    simp only [List.map_cons, List.nodup_cons] at hnd
    rw [List.foldl_cons, ih _ hnd.2, lookupBucket_initItem]
    by_cases h1 : key = kv
    · subst h1
      have h2 : key ∉ rest := by
        intro hmem
        exact hnd.1 (List.mem_map.mpr ⟨key, hmem, rfl⟩)
      simp [h2]
    · by_cases h2 : key ∈ rest <;> simp [h1, h2]

theorem foldl_initItem_hval (word : Word) (x : Char) :
    ∀ (items : List (Char × Nat)) (st : FuzzySearcher),
    (∀ kv ∈ items, kv.2 = word.count kv.1) →
    lookupMax ((items.foldl (initItem word) st)).highestLetterInWordCount x
      = if x ∈ items.map Prod.fst
        then max (lookupMax st.highestLetterInWordCount x) (word.count x)
        else lookupMax st.highestLetterInWordCount x := by
  intro items
  induction items with
  | nil => intro st _; simp
  | cons kv rest ih =>
    intro st hv
    have hc : kv.2 = word.count kv.1 := hv kv (List.mem_cons_self _ _)
    rw [List.foldl_cons, ih _ (fun p hp => hv p (List.mem_cons_of_mem _ hp)),
      lookupMax_initItem]
    simp only [List.map_cons, List.mem_cons]
    by_cases hx : x = kv.1
    · rw [if_pos hx, if_pos (Or.inl hx), hc, ← hx]
      by_cases h2 : x ∈ rest.map Prod.fst
      · rw [if_pos h2, Nat.max_assoc, Nat.max_self]
      · rw [if_neg h2]
    · rw [if_neg hx]
      by_cases h2 : x ∈ rest.map Prod.fst
      · rw [if_pos h2, if_pos (Or.inr h2)]
      · rw [if_neg h2, if_neg (by push_neg; exact ⟨hx, h2⟩)]

theorem initWord_settings (st : FuzzySearcher) (word : Word) :
    (initWord st word).settings_tolerance = st.settings_tolerance :=
  foldl_initItem_settings word _ st

theorem initWord_bucket (st : FuzzySearcher) (word : Word) (key : Char × Nat) :
    lookupBucket (initWord st word).allWords key
      = lookupBucket st.allWords key
        ++ (if key.1 ∈ word ∧ key.2 = word.count key.1 then [word] else []) := by
  unfold initWord
  rw [foldl_initItem_bucket word key (counterItems word) st
    (by rw [counterItems_keys]; exact nodup_firstDistinct word)]
  congr 1
  have : key ∈ counterItems word ↔ key.1 ∈ word ∧ key.2 = word.count key.1 := by
    obtain ⟨k, v⟩ := key
    exact mem_counterItems word k v
  by_cases h : key ∈ counterItems word
  · rw [if_pos h, if_pos (this.mp h)]
  · rw [if_neg h, if_neg (fun hc => h (this.mpr hc))]

theorem initWord_hval (st : FuzzySearcher) (word : Word) (x : Char) :
    lookupMax (initWord st word).highestLetterInWordCount x
      = max (lookupMax st.highestLetterInWordCount x) (word.count x) := by
  unfold initWord
  rw [foldl_initItem_hval word x (counterItems word) st
    (by rintro ⟨k, v⟩ h; exact ((mem_counterItems word k v).mp h).2)]
  rw [counterItems_keys]
  by_cases h : x ∈ word
  · rw [if_pos ((mem_firstDistinct word x).mpr h)]
  · rw [if_neg (fun hc => h ((mem_firstDistinct word x).mp hc))]
    have : word.count x = 0 := List.count_eq_zero.mpr h
    rw [this]
    simp

theorem foldl_initWord_settings :
    ∀ (V : List Word) (st : FuzzySearcher),
    ((V.foldl initWord st)).settings_tolerance = st.settings_tolerance := by
  intro V
  induction V with
  | nil => intro st; rfl
  | cons u rest ih =>
    intro st
    rw [List.foldl_cons, ih, initWord_settings]

theorem foldl_initWord_bucket (key : Char × Nat) :
    ∀ (V : List Word) (st : FuzzySearcher),
    lookupBucket ((V.foldl initWord st)).allWords key
      = lookupBucket st.allWords key
        ++ V.filter (fun u => decide (key.1 ∈ u ∧ key.2 = u.count key.1)) := by
  intro V
  induction V with
  | nil => intro st; simp
  | cons u rest ih =>
    intro st
    rw [List.foldl_cons, ih, initWord_bucket, List.filter_cons, List.append_assoc]
    by_cases h : key.1 ∈ u ∧ key.2 = u.count key.1
    · simp [h]
    · simp [h]

theorem foldl_initWord_hval (x : Char) :
    ∀ (V : List Word) (st : FuzzySearcher),
    lookupMax ((V.foldl initWord st)).highestLetterInWordCount x
      = V.foldl (fun a u => max a (u.count x)) (lookupMax st.highestLetterInWordCount x) := by
  intro V
  induction V with
  | nil => intro st; rfl
  | cons u rest ih =>
    intro st
    rw [List.foldl_cons, ih, initWord_hval, List.foldl_cons]

theorem mk'_settings (V : List Word) :
    (FuzzySearcher.mk' V).settings_tolerance = some 5 :=
  foldl_initWord_settings V _

theorem mk'_bucket (V : List Word) (key : Char × Nat) :
    lookupBucket (FuzzySearcher.mk' V).allWords key
      = V.filter (fun u => decide (key.1 ∈ u ∧ key.2 = u.count key.1)) := by
  unfold FuzzySearcher.mk'
  rw [foldl_initWord_bucket]
  rfl

theorem mk'_hval (V : List Word) (x : Char) :
    (FuzzySearcher.mk' V).hval x = V.foldl (fun a u => max a (u.count x)) 0 := by
  unfold FuzzySearcher.mk' FuzzySearcher.hval
  rw [foldl_initWord_hval]
  rfl

theorem foldl_max_le_foldl {x : Char} :
    ∀ (V : List Word) (a : Nat), a ≤ V.foldl (fun b u => max b (u.count x)) a := by
  intro V
  induction V with
  | nil => intro a; exact Nat.le_refl a
  | cons u rest ih =>
    intro a
    rw [List.foldl_cons]
    exact Nat.le_trans (Nat.le_max_left a (u.count x)) (ih _)

theorem foldl_max_count_le {x : Char} {w : Word} :
    ∀ (V : List Word) (a : Nat), w ∈ V →
    w.count x ≤ V.foldl (fun b u => max b (u.count x)) a := by
  intro V
  induction V with
  | nil => intro a h; simp at h
  | cons u rest ih =>
    intro a h
    rcases List.mem_cons.mp h with h | h
    · subst h
      rw [List.foldl_cons]
      calc w.count x ≤ max a (w.count x) := Nat.le_max_right _ _
        _ ≤ rest.foldl (fun b u => max b (u.count x)) (max a (w.count x)) :=
            foldl_max_le_foldl rest _
    · rw [List.foldl_cons]
      exact ih _ h

theorem count_le_mk'_hval {V : List Word} {w : Word} (x : Char) (h : w ∈ V) :
    w.count x ≤ (FuzzySearcher.mk' V).hval x := by
  rw [mk'_hval]
  exact foldl_max_count_le V 0 h

theorem alookup_dincr_self (c : List (Word × Nat)) (b : Word) :
    alookup (dincr c b) b = some (cval c b + 1) := by
  simp only [dincr, cval]
  cases hb : alookup c b with
  | some u =>
    rw [dgetD_fst_of_some 0 hb, dgetD_snd, hb, alookup_aset_self]
  | none =>
    rw [dgetD_fst_of_none 0 hb, dgetD_snd, hb, alookup_aset_self]

theorem alookup_dincr_ne (c : List (Word × Nat)) (b w : Word) (hw : w ≠ b) :
    alookup (dincr c b) w = alookup c w := by
  simp only [dincr]
  cases hb : alookup c b with
  | some u =>
    rw [dgetD_fst_of_some 0 hb, alookup_aset_ne _ _ _ _ hw]
  | none =>
    rw [dgetD_fst_of_none 0 hb, alookup_aset_ne _ _ _ _ hw, alookup_append_single]
    cases hcw : alookup c w with
    | some v => rfl
    | none => rw [if_neg hw]

theorem cval_dincr (c : List (Word × Nat)) (b w : Word) :
    cval (dincr c b) w = cval c w + (if w = b then 1 else 0) := by
  by_cases hw : w = b
  · subst hw
    simp only [cval]
    rw [alookup_dincr_self]
    simp [cval]
  · simp only [cval]
    rw [alookup_dincr_ne _ _ _ hw, if_neg hw]
    omega

theorem keys_dincr (c : List (Word × Nat)) (b : Word) :
    ((dincr c b).map Prod.fst)
      = if b ∈ c.map Prod.fst then c.map Prod.fst else c.map Prod.fst ++ [b] := by
  simp only [dincr]
  cases hb : alookup c b with
  | some u =>
    have hmem : b ∈ c.map Prod.fst := by
      by_contra hmem
      rw [(alookup_eq_none_iff c b).mpr hmem] at hb
      exact Option.noConfusion hb
    rw [dgetD_fst_of_some 0 hb, keys_aset_of_mem _ hmem, if_pos hmem]
  | none =>
    have hmem : b ∉ c.map Prod.fst := (alookup_eq_none_iff c b).mp hb
    rw [dgetD_fst_of_none 0 hb, if_neg hmem,
      keys_aset_of_mem _ (by simp : b ∈ (c ++ [(b, 0)]).map Prod.fst)]
    simp

theorem keys_nodup_dincr {c : List (Word × Nat)} (b : Word)
    (h : (c.map Prod.fst).Nodup) : ((dincr c b).map Prod.fst).Nodup := by
  rw [keys_dincr]
  by_cases hb : b ∈ c.map Prod.fst
  · rw [if_pos hb]; exact h
  · rw [if_neg hb]
    simp [List.nodup_append, h, hb]

theorem candPos_dincr {c : List (Word × Nat)} (b : Word) (h : CandPos c) :
    CandPos (dincr c b) := by
  intro w v hl
  by_cases hw : w = b
  · subst hw
    rw [alookup_dincr_self] at hl
    have := Option.some.inj hl
    omega
  · rw [alookup_dincr_ne _ _ _ hw] at hl
    exact h w v hl

theorem cval_foldl_dincr (bucket : List Word) :
    ∀ (c : List (Word × Nat)) (w : Word),
    cval (bucket.foldl dincr c) w = cval c w + bucket.count w := by
  induction bucket with
  | nil => intro c w; simp
  | cons b bs ih =>
    intro c w
    rw [List.foldl_cons, ih, cval_dincr, List.count_cons]
    simp only [beq_iff_eq]
    by_cases hw : w = b
    · rw [if_pos hw, if_pos hw.symm]
      omega
    · rw [if_neg hw, if_neg (fun h => hw h.symm)]
      omega

theorem keys_nodup_foldl_dincr (bucket : List Word) :
    ∀ {c : List (Word × Nat)}, (c.map Prod.fst).Nodup →
    ((bucket.foldl dincr c).map Prod.fst).Nodup := by
  induction bucket with
  | nil => intro c h; exact h
  | cons b bs ih =>
    intro c h
    rw [List.foldl_cons]
    exact ih (keys_nodup_dincr b h)

theorem candPos_foldl_dincr (bucket : List Word) :
    ∀ {c : List (Word × Nat)}, CandPos c → CandPos (bucket.foldl dincr c) := by
  induction bucket with
  | nil => intro c h; exact h
  | cons b bs ih =>
    intro c h
    rw [List.foldl_cons]
    exact ih (candPos_dincr b h)

theorem cval_rangeFold (aw : List ((Char × Nat) × List Word)) (L : Char) :
    ∀ (len a : Nat) (c : List (Word × Nat)) (w : Word),
    cval ((pyrangeLen a len).foldl (fun cands amount =>
        match alookup aw (L, amount) with
        | none => cands
        | some bucket => bucket.foldl dincr cands) c) w
      = cval c w
        + ((pyrangeLen a len).map
            (fun amount => (lookupBucket aw (L, amount)).count w)).sum := by
  intro len
  induction len with
  | zero => intro a c w; simp [pyrangeLen]
  | succ n ih =>
    intro a c w
    simp only [pyrangeLen, List.foldl_cons, List.map_cons, List.sum_cons]
    cases ha : alookup aw (L, a) with
    | none =>
      rw [ih]
      simp [lookupBucket, ha]
    | some bucket =>
      rw [ih, cval_foldl_dincr]
      simp [lookupBucket, ha]
      omega

theorem keys_nodup_rangeFold (aw : List ((Char × Nat) × List Word)) (L : Char) :
    ∀ (len a : Nat) {c : List (Word × Nat)}, (c.map Prod.fst).Nodup →
    (((pyrangeLen a len).foldl (fun cands amount =>
        match alookup aw (L, amount) with
        | none => cands
        | some bucket => bucket.foldl dincr cands) c).map Prod.fst).Nodup := by
  intro len
  induction len with
  | zero => intro a c h; exact h
  | succ n ih =>
    intro a c h
    simp only [pyrangeLen, List.foldl_cons]
    cases ha : alookup aw (L, a) with
    | none => exact ih _ h
    | some bucket => exact ih _ (keys_nodup_foldl_dincr bucket h)

theorem candPos_rangeFold (aw : List ((Char × Nat) × List Word)) (L : Char) :
    ∀ (len a : Nat) {c : List (Word × Nat)}, CandPos c →
    CandPos ((pyrangeLen a len).foldl (fun cands amount =>
        match alookup aw (L, amount) with
        | none => cands
        | some bucket => bucket.foldl dincr cands) c) := by
  intro len
  induction len with
  | zero => intro a c h; exact h
  | succ n ih =>
    intro a c h
    simp only [pyrangeLen, List.foldl_cons]
    cases ha : alookup aw (L, a) with
    | none => exact ih _ h
    | some bucket => exact ih _ (candPos_foldl_dincr bucket h)

theorem count_lookupBucket_mk' (V : List Word) (L : Char) (n : Nat) (w : Word) :
    (lookupBucket (FuzzySearcher.mk' V).allWords (L, n)).count w
      = if L ∈ w ∧ n = w.count L then V.count w else 0 := by
  rw [mk'_bucket]
  by_cases h : L ∈ w ∧ n = w.count L
  · rw [if_pos h]
    exact List.count_filter (by simpa using h)
  · rw [if_neg h, List.count_eq_zero]
    intro hmem
    exact h (by simpa using (List.mem_filter.mp hmem).2)

theorem sum_bucketCounts (V : List Word) (L : Char) (w : Word) (len a : Nat) :
    ((pyrangeLen a len).map (fun amount =>
        (lookupBucket (FuzzySearcher.mk' V).allWords (L, amount)).count w)).sum
      = if L ∈ w ∧ a ≤ w.count L ∧ w.count L < a + len then V.count w else 0 := by
  by_cases hL : L ∈ w
  · have hcong : ∀ amount ∈ pyrangeLen a len,
        (lookupBucket (FuzzySearcher.mk' V).allWords (L, amount)).count w
          = if amount = w.count L then V.count w else 0 := by
      intro amount _
      rw [count_lookupBucket_mk']
      by_cases h : amount = w.count L
      · rw [if_pos ⟨hL, h⟩, if_pos h]
      · rw [if_neg (fun hc => h hc.2), if_neg h]
    rw [List.map_congr_left hcong, sum_map_pyrangeLen_ite]
    have : (a ≤ w.count L ∧ w.count L < a + len)
        ↔ (L ∈ w ∧ a ≤ w.count L ∧ w.count L < a + len) := by
      constructor
      · intro hh; exact ⟨hL, hh⟩
      · intro hh; exact hh.2
    rw [if_congr this rfl rfl]
  · have hall : ∀ x ∈ (pyrangeLen a len).map (fun amount =>
        (lookupBucket (FuzzySearcher.mk' V).allWords (L, amount)).count w), x = 0 := by
      intro x hx
      obtain ⟨amount, _, hxe⟩ := List.mem_map.mp hx
      rw [← hxe, count_lookupBucket_mk', if_neg (fun hc => hL hc.1)]
    rw [List.sum_eq_zero hall, if_neg (fun hc => hL hc.1)]

theorem lookupMax_queryStep_fst (aw : List ((Char × Nat) × List Word))
    (acc : List (Char × Nat) × List (Word × Nat)) (kv : Char × Nat) (x : Char) :
    lookupMax (queryStep aw acc kv).1 x = lookupMax acc.1 x := by
  simp only [queryStep, lookupMax]
  exact dgetD_ext acc.1 kv.1 0 x

theorem cval_queryStep (V : List Word) (kv : Char × Nat)
    (acc : List (Char × Nat) × List (Word × Nat)) (w : Word)
    (hkv : 1 ≤ kv.2)
    (hmax : lookupMax acc.1 kv.1 = (FuzzySearcher.mk' V).hval kv.1) :
    cval (queryStep (FuzzySearcher.mk' V).allWords acc kv).2 w
      = cval acc.2 w + V.count w * (if kv.2 ≤ w.count kv.1 then 1 else 0) := by
  simp only [queryStep, pyrange]
  rw [dgetD_snd,
    show (alookup acc.1 kv.1).getD 0 = lookupMax acc.1 kv.1 from rfl, hmax,
    cval_rangeFold, sum_bucketCounts]
  congr 1
  by_cases hm : V.count w = 0
  · simp [hm]
  · have hwV : w ∈ V := List.count_pos_iff.mp (Nat.pos_of_ne_zero hm)
    have hle : w.count kv.1 ≤ (FuzzySearcher.mk' V).hval kv.1 :=
      count_le_mk'_hval _ hwV
    by_cases hc : kv.2 ≤ w.count kv.1
    · have hmem : kv.1 ∈ w := List.count_pos_iff.mp (by omega)
      have hcond : kv.1 ∈ w ∧ kv.2 ≤ w.count kv.1
          ∧ w.count kv.1 < kv.2 + ((FuzzySearcher.mk' V).hval kv.1 + 1 - kv.2) :=
        ⟨hmem, hc, by omega⟩
      rw [if_pos hcond, if_pos hc, Nat.mul_one]
    · rw [if_neg (fun hcond => hc hcond.2.1), if_neg hc, Nat.mul_zero]

theorem keys_nodup_queryStep (aw : List ((Char × Nat) × List Word))
    (acc : List (Char × Nat) × List (Word × Nat)) (kv : Char × Nat)
    (h : (acc.2.map Prod.fst).Nodup) :
    (((queryStep aw acc kv).2).map Prod.fst).Nodup := by
  simp only [queryStep, pyrange]
  exact keys_nodup_rangeFold aw kv.1 _ _ h

theorem candPos_queryStep (aw : List ((Char × Nat) × List Word))
    (acc : List (Char × Nat) × List (Word × Nat)) (kv : Char × Nat)
    (h : CandPos acc.2) : CandPos ((queryStep aw acc kv).2) := by
  simp only [queryStep, pyrange]
  exact candPos_rangeFold aw kv.1 _ _ h

theorem keys_nodup_itemsFold (aw : List ((Char × Nat) × List Word)) :
    ∀ (items : List (Char × Nat)) (acc : List (Char × Nat) × List (Word × Nat)),
    (acc.2.map Prod.fst).Nodup →
    (((items.foldl (queryStep aw) acc).2).map Prod.fst).Nodup := by
  intro items
  induction items with
  | nil => intro acc h; exact h
  | cons kv rest ih =>
    intro acc h
    rw [List.foldl_cons]
    exact ih _ (keys_nodup_queryStep aw acc kv h)

theorem candPos_itemsFold (aw : List ((Char × Nat) × List Word)) :
    ∀ (items : List (Char × Nat)) (acc : List (Char × Nat) × List (Word × Nat)),
    CandPos acc.2 → CandPos ((items.foldl (queryStep aw) acc).2) := by
  intro items
  induction items with
  | nil => intro acc h; exact h
  | cons kv rest ih =>
    intro acc h
    rw [List.foldl_cons]
    exact ih _ (candPos_queryStep aw acc kv h)

theorem cval_itemsFold (V : List Word) (w : Word) :
    ∀ (items : List (Char × Nat)) (acc : List (Char × Nat) × List (Word × Nat)),
    (∀ x, lookupMax acc.1 x = (FuzzySearcher.mk' V).hval x) →
    (∀ kv ∈ items, 1 ≤ kv.2) →
    cval ((items.foldl (queryStep (FuzzySearcher.mk' V).allWords) acc).2) w
      = cval acc.2 w
        + V.count w * (items.countP (fun kv => decide (kv.2 ≤ w.count kv.1))) := by
  intro items
  induction items with
  | nil => intro acc h1 h2; simp
  | cons kv rest ih =>
    intro acc h1 h2
    rw [List.foldl_cons,
      ih _ (fun x => by rw [lookupMax_queryStep_fst]; exact h1 x)
        (fun p hp => h2 p (List.mem_cons_of_mem _ hp)),
      cval_queryStep V kv acc w (h2 kv (List.mem_cons_self _ _)) (h1 kv.1),
      List.countP_cons]
    by_cases hc : kv.2 ≤ w.count kv.1
    · simp only [decide_eq_true_eq, if_pos hc, Nat.mul_add, Nat.mul_one]
      ring
    · simp only [decide_eq_true_eq, if_neg hc, Nat.mul_zero, Nat.add_zero]

theorem mem_getAllSearchCandidates_iff (V : List Word) (q w : Word) :
    w ∈ ((FuzzySearcher.mk' V).getAllSearchCandidates q).2 ↔
      (1 ≤ numDistinct q ∧ V.count w * satisfied w q = numDistinct q) := by
  simp only [FuzzySearcher.getAllSearchCandidates]
  have hnd : ((((counterItems q).foldl (queryStep (FuzzySearcher.mk' V).allWords)
      ((FuzzySearcher.mk' V).highestLetterInWordCount, [])).2).map Prod.fst).Nodup :=
    keys_nodup_itemsFold _ _ _ (by simp)
  have hpos : CandPos (((counterItems q).foldl (queryStep (FuzzySearcher.mk' V).allWords)
      ((FuzzySearcher.mk' V).highestLetterInWordCount, [])).2) :=
    candPos_itemsFold _ _ _ (fun w' v hv => by simp at hv)
  have hcv : cval (((counterItems q).foldl (queryStep (FuzzySearcher.mk' V).allWords)
      ((FuzzySearcher.mk' V).highestLetterInWordCount, [])).2) w
      = V.count w * satisfied w q := by
    rw [cval_itemsFold V w (counterItems q)
      ((FuzzySearcher.mk' V).highestLetterInWordCount, []) (fun x => rfl)
      (counterItems_pos q)]
    simp [cval, satisfied]
  constructor
  · intro hmem
    obtain ⟨p, hp, hfst⟩ := List.mem_map.mp hmem
    obtain ⟨w', v⟩ := p
    rw [show w' = w from hfst] at hp
    have hpf := List.mem_filter.mp hp
    have hlk : alookup (((counterItems q).foldl (queryStep (FuzzySearcher.mk' V).allWords)
        ((FuzzySearcher.mk' V).highestLetterInWordCount, [])).2) w = some v :=
      alookup_eq_some_of_mem hnd hpf.1
    have hv1 : 1 ≤ v := hpos w v hlk
    have hveq : v = numDistinct q := by
      have := of_decide_eq_true hpf.2
      exact this
    have hcvv : cval (((counterItems q).foldl (queryStep (FuzzySearcher.mk' V).allWords)
        ((FuzzySearcher.mk' V).highestLetterInWordCount, [])).2) w = v := by
      simp [cval, hlk]
    rw [hcv] at hcvv
    exact ⟨by omega, by omega⟩
  · rintro ⟨hk, heq⟩
    have hlk : alookup (((counterItems q).foldl (queryStep (FuzzySearcher.mk' V).allWords)
        ((FuzzySearcher.mk' V).highestLetterInWordCount, [])).2) w
        = some (numDistinct q) := by
      cases hl : alookup (((counterItems q).foldl (queryStep (FuzzySearcher.mk' V).allWords)
          ((FuzzySearcher.mk' V).highestLetterInWordCount, [])).2) w with
      | none =>
        exfalso
        have h0 : cval (((counterItems q).foldl (queryStep (FuzzySearcher.mk' V).allWords)
            ((FuzzySearcher.mk' V).highestLetterInWordCount, [])).2) w = 0 := by
          simp [cval, hl]
        rw [hcv] at h0
        omega
      | some v =>
        have hval : cval (((counterItems q).foldl (queryStep (FuzzySearcher.mk' V).allWords)
            ((FuzzySearcher.mk' V).highestLetterInWordCount, [])).2) w = v := by
          simp [cval, hl]
        rw [hcv] at hval
        rw [hval] at heq
        rw [heq]
    exact List.mem_map.mpr ⟨(w, numDistinct q),
      List.mem_filter.mpr ⟨mem_of_alookup_eq_some hlk, by simp [numDistinct]⟩, rfl⟩

theorem scanExact_isSome (q : Word) :
    ∀ (c : Word) (upto : Nat), upto < q.length → (scanExact q c upto).isSome = true := by
  intro c
  induction c with
  | nil => intro upto h; rfl
  | cons l rest ih =>
    intro upto h
    simp only [scanExact]
    cases hq : q.get? upto with
    | none =>
      exfalso
      rw [List.get?_eq_none] at hq
      omega
    | some qc =>
      dsimp only
      by_cases hl : l = qc
      · rw [if_pos hl]
        by_cases he : upto + 1 = q.length
        · rw [if_pos he]; rfl
        · rw [if_neg he]
          exact ih (upto + 1) (by omega)
      · rw [if_neg hl]
        exact ih upto h

theorem scanTol_isSome (q : Word) (t : Nat) :
    ∀ (c : Word) (dist upto greatest : Nat), upto < q.length →
    (scanTol q t c dist upto greatest).isSome = true := by
  intro c
  induction c with
  | nil => intro dist upto g h; rfl
  | cons l rest ih =>
    intro dist upto g h
    simp only [scanTol]
    cases hq : q.get? upto with
    | none =>
      exfalso
      rw [List.get?_eq_none] at hq
      omega
    | some qc =>
      dsimp only
      by_cases hl : l = qc
      · rw [if_pos hl]
        by_cases he : upto + 1 = q.length
        · rw [if_pos he]; rfl
        · rw [if_neg he]
          exact ih 0 (upto + 1) g (by omega)
      · rw [if_neg hl]
        by_cases ht : dist + 1 > t
        · rw [if_pos ht]; rfl
        · rw [if_neg ht]
          exact ih (dist + 1) upto (max g (dist + 1)) h

theorem filter_isSome {q : Word} (hq : q ≠ []) :
    ∀ (cs : List Word), (FuzzySearcher.filter cs q).isSome = true := by
  have hlen : 0 < q.length := List.length_pos.mpr hq
  intro cs
  induction cs with
  | nil => rfl
  | cons c rest ih =>
    simp only [FuzzySearcher.filter]
    cases hs : scanExact q c 0 with
    | none =>
      have h2 := scanExact_isSome q c 0 hlen
      rw [hs] at h2
      exact absurd h2 (by simp)
    | some b =>
      cases b with
      | false => exact ih
      | true =>
        cases hrec : FuzzySearcher.filter rest q with
        | none =>
          rw [hrec] at ih
          exact absurd ih (by simp)
        | some r => rfl

theorem scoredCandidates_isSome {q : Word} (hq : q ≠ []) (t : Nat) :
    ∀ (cs : List Word), (scoredCandidates cs q t).isSome = true := by
  have hlen : 0 < q.length := List.length_pos.mpr hq
  intro cs
  induction cs with
  | nil => rfl
  | cons c rest ih =>
    simp only [scoredCandidates]
    cases hs : scanTol q t c 0 0 0 with
    | none =>
      have h2 := scanTol_isSome q t c 0 0 0 hlen
      rw [hs] at h2
      exact absurd h2 (by simp)
    | some b =>
      cases b with
      | none => exact ih
      | some s =>
        cases hrec : scoredCandidates rest q t with
        | none =>
          rw [hrec] at ih
          exact absurd ih (by simp)
        | some r => rfl

theorem lessFuzzyFilter_isSome {q : Word} (hq : q ≠ []) (t : Nat) (cs : List Word) :
    (FuzzySearcher.lessFuzzyFilter cs q t).isSome = true := by
  unfold FuzzySearcher.lessFuzzyFilter
  cases hs : scoredCandidates cs q t with
  | none =>
    have h2 := scoredCandidates_isSome hq t cs
    rw [hs] at h2
    exact absurd h2 (by simp)
  | some sc => rfl

theorem search_snd (E : FuzzySearcher) (q : Word) :
    (E.search q).2
      = match E.settings_tolerance with
        | none => FuzzySearcher.filter (E.getAllSearchCandidates q).2 q
        | some t => FuzzySearcher.lessFuzzyFilter (E.getAllSearchCandidates q).2 q t := by
  simp only [FuzzySearcher.search]
  rw [show (E.getAllSearchCandidates q).1.settings_tolerance
      = E.settings_tolerance from rfl]
  cases E.settings_tolerance <;> rfl

theorem search_fst (E : FuzzySearcher) (q : Word) :
    (E.search q).1 = (E.getAllSearchCandidates q).1 := by
  simp only [FuzzySearcher.search]
  rw [show (E.getAllSearchCandidates q).1.settings_tolerance
      = E.settings_tolerance from rfl]
  cases E.settings_tolerance <;> rfl

theorem rangeFold_nil_aw (L : Char) :
    ∀ (l : List Nat) (c : List (Word × Nat)),
    l.foldl (fun cands amount =>
      match alookup ([] : List ((Char × Nat) × List Word)) (L, amount) with
      | none => cands
      | some bucket => bucket.foldl dincr cands) c = c := by
  intro l
  induction l with
  | nil => intro c; rfl
  | cons a rest ih =>
    intro c
    rw [List.foldl_cons]
    exact ih c

theorem getAll_mkNil_snd (q : Word) :
    ((FuzzySearcher.mk' []).getAllSearchCandidates q).2 = [] := by
  simp only [FuzzySearcher.getAllSearchCandidates]
  have h : ∀ (items : List (Char × Nat)) (acc : List (Char × Nat) × List (Word × Nat)),
      ((items.foldl (queryStep (FuzzySearcher.mk' []).allWords) acc)).2 = acc.2 := by
    intro items
    induction items with
    | nil => intro acc; rfl
    | cons kv rest ih =>
      intro acc
      rw [List.foldl_cons, ih]
      simp only [queryStep]
      rw [show (FuzzySearcher.mk' []).allWords = [] from rfl]
      exact rangeFold_nil_aw kv.1 _ acc.2
  rw [h]
  rfl

theorem lookupMax_itemsFold_fst (aw : List ((Char × Nat) × List Word)) :
    ∀ (items : List (Char × Nat)) (acc : List (Char × Nat) × List (Word × Nat)) (x : Char),
    lookupMax ((items.foldl (queryStep aw) acc)).1 x = lookupMax acc.1 x := by
  intro items
  induction items with
  | nil => intro acc x; rfl
  | cons kv rest ih =>
    intro acc x
    rw [List.foldl_cons, ih, lookupMax_queryStep_fst]

theorem mem_insortNat (x : Nat) :
    ∀ (l : List Nat) (y : Nat), y ∈ insortNat x l ↔ y = x ∨ y ∈ l := by
  intro l
  induction l with
  | nil => intro y; simp [insortNat]
  | cons z zs ih =>
    intro y
    simp only [insortNat]
    by_cases h : x ≤ z
    · rw [if_pos h]
      simp [List.mem_cons]
    · rw [if_neg h]
      simp only [List.mem_cons, ih]
      tauto

theorem pairwise_insortNat (x : Nat) :
    ∀ {l : List Nat}, l.Pairwise (· ≤ ·) → (insortNat x l).Pairwise (· ≤ ·) := by
  intro l
  induction l with
  | nil => intro _; simp [insortNat]
  | cons z zs ih =>
    intro h
    rw [List.pairwise_cons] at h
    simp only [insortNat]
    by_cases hx : x ≤ z
    · rw [if_pos hx, List.pairwise_cons]
      refine ⟨fun b hb => ?_, List.pairwise_cons.mpr h⟩
      rcases List.mem_cons.mp hb with hb | hb
      · exact hb ▸ hx
      · exact Nat.le_trans hx (h.1 b hb)
    · rw [if_neg hx, List.pairwise_cons]
      refine ⟨fun b hb => ?_, ih h.2⟩
      rcases (mem_insortNat x zs b).mp hb with hb | hb
      · subst hb; omega
      · exact h.1 b hb

theorem pairwise_sortNats (l : List Nat) : (sortNats l).Pairwise (· ≤ ·) := by
  unfold sortNats
  induction l with
  | nil => simp
  | cons z zs ih =>
    rw [List.foldr_cons]
    exact pairwise_insortNat z ih

theorem mem_sortNats (l : List Nat) (y : Nat) : y ∈ sortNats l ↔ y ∈ l := by
  unfold sortNats
  induction l with
  | nil => simp
  | cons z zs ih =>
    rw [List.foldr_cons, mem_insortNat]
    simp [ih]

theorem nodup_insortNat (x : Nat) :
    ∀ {l : List Nat}, x ∉ l → l.Nodup → (insortNat x l).Nodup := by
  intro l
  induction l with
  | nil => intro _ _; simp [insortNat]
  | cons z zs ih =>
    intro hx h
    rw [List.mem_cons] at hx
    push_neg at hx
    rw [List.nodup_cons] at h
    simp only [insortNat]
    by_cases hle : x ≤ z
    · rw [if_pos hle, List.nodup_cons, List.nodup_cons]
      refine ⟨?_, h.1, h.2⟩
      rw [List.mem_cons]
      push_neg
      exact hx
    · rw [if_neg hle, List.nodup_cons]
      refine ⟨fun hm => ?_, ih hx.2 h.2⟩
      rcases (mem_insortNat x zs z).mp hm with hm | hm
      · exact hx.1 hm.symm
      · exact h.1 hm

theorem nodup_sortNats : ∀ {l : List Nat}, l.Nodup → (sortNats l).Nodup := by
  intro l
  induction l with
  | nil => intro _; simp [sortNats]
  | cons z zs ih =>
    intro h
    rw [List.nodup_cons] at h
    show (insortNat z (sortNats zs)).Nodup
    exact nodup_insortNat z (fun hm => h.1 ((mem_sortNats zs z).mp hm)) (ih h.2)

theorem scoredCandidates_scan :
    ∀ {cs : List Word} {q : Word} {t : Nat} {sc : List (Word × Nat)},
    scoredCandidates cs q t = some sc →
    ∀ p ∈ sc, scanTol q t p.1 0 0 0 = some (some p.2) := by
  intro cs
  induction cs with
  | nil =>
    intro q t sc h
    simp [scoredCandidates] at h
    subst h
    intro p hp
    simp at hp
  | cons c rest ih =>
    intro q t sc h
    cases hs : scanTol q t c 0 0 0 with
    | none =>
      simp only [scoredCandidates, hs] at h
      exact Option.noConfusion h
    | some b =>
      cases b with
      | none =>
        simp only [scoredCandidates, hs] at h
        exact ih h
      | some s =>
        simp only [scoredCandidates, hs] at h
        cases hrec : scoredCandidates rest q t with
        | none => rw [hrec] at h; simp at h
        | some r =>
          rw [hrec, Option.map_some'] at h
          have hres := Option.some.inj h
          subst hres
          intro p hp
          rcases List.mem_cons.mp hp with hp | hp
          · subst hp; exact hs
          · exact ih hrec p hp

theorem scoredCandidates_filter_eq :
    ∀ {cs : List Word} {q : Word} {t : Nat} {sc : List (Word × Nat)},
    scoredCandidates cs q t = some sc → ∀ (s : Nat),
    cs.filter (fun c => decide (scanTol q t c 0 0 0 = some (some s)))
      = (sc.filter (fun p => decide (p.2 = s))).map Prod.fst := by
  intro cs
  induction cs with
  | nil =>
    intro q t sc h s
    simp [scoredCandidates] at h
    subst h
    rfl
  | cons c rest ih =>
    intro q t sc h s
    cases hs : scanTol q t c 0 0 0 with
    | none =>
      simp only [scoredCandidates, hs] at h
      exact Option.noConfusion h
    | some b =>
      cases b with
      | none =>
        simp only [scoredCandidates, hs] at h
        rw [List.filter_cons]
        have hd : decide (scanTol q t c 0 0 0 = some (some s)) = false := by
          simp [hs]
        rw [hd, if_neg Bool.false_ne_true]
        exact ih h s
      | some s2 =>
        simp only [scoredCandidates, hs] at h
        cases hrec : scoredCandidates rest q t with
        | none => rw [hrec] at h; simp at h
        | some r =>
          rw [hrec, Option.map_some'] at h
          have hres := Option.some.inj h
          subst hres
          rw [List.filter_cons, List.filter_cons]
          by_cases hss : s2 = s
          · have hd1 : decide (scanTol q t c 0 0 0 = some (some s)) = true := by
              simp [hs, hss]
            have hd2 : decide ((c, s2).2 = s) = true := by simp [hss]
            rw [hd1, hd2, if_pos rfl, if_pos rfl, List.map_cons]
            congr 1
            exact ih hrec s
          · have hd1 : decide (scanTol q t c 0 0 0 = some (some s)) = false := by
              simp only [hs, decide_eq_false_iff_not]
              intro he
              exact hss (Option.some.inj (Option.some.inj he))
            have hd2 : decide ((c, s2).2 = s) = false := by
              simp [hss]
            rw [hd1, hd2, if_neg Bool.false_ne_true, if_neg Bool.false_ne_true]
            exact ih hrec s

theorem pairwise_of_forall_mem {α : Type} {R : α → α → Prop} :
    ∀ (l : List α), (∀ a ∈ l, ∀ b ∈ l, R a b) → l.Pairwise R := by
  intro l
  induction l with
  | nil => intro _; exact List.Pairwise.nil
  | cons a rest ih =>
    intro h
    exact List.Pairwise.cons
      (fun b hb => h a (List.mem_cons_self _ _) b (List.mem_cons_of_mem _ hb))
      (ih (fun x hx y hy => h x (List.mem_cons_of_mem _ hx) y (List.mem_cons_of_mem _ hy)))

theorem mem_group_scan {q : Word} {t : Nat} {sc : List (Word × Nat)}
    (hsc : ∀ p ∈ sc, scanTol q t p.1 0 0 0 = some (some p.2)) {s : Nat} {a : Word}
    (ha : a ∈ (sc.filter (fun p => decide (p.2 = s))).map Prod.fst) :
    scanTol q t a 0 0 0 = some (some s) := by
  obtain ⟨p, hp, hfst⟩ := List.mem_map.mp ha
  have hpf := List.mem_filter.mp hp
  have h2 : p.2 = s := of_decide_eq_true hpf.2
  have h3 := hsc p hpf.1
  rw [hfst, h2] at h3
  exact h3

theorem scoreOf_eq {q : Word} {t : Nat} {a : Word} {s : Nat}
    (h : scanTol q t a 0 0 0 = some (some s)) : scoreOf q t a = s := by
  unfold scoreOf
  rw [h]

theorem pairwise_groups {q : Word} {t : Nat} {sc : List (Word × Nat)}
    (hsc : ∀ p ∈ sc, scanTol q t p.1 0 0 0 = some (some p.2)) :
    ∀ (keys : List Nat), keys.Pairwise (· ≤ ·) →
    (keys.flatMap (fun s => (sc.filter (fun p => decide (p.2 = s))).map Prod.fst)).Pairwise
      (fun a b => scoreOf q t a ≤ scoreOf q t b) := by
  intro keys
  induction keys with
  | nil => intro _; simp
  | cons k ks ih =>
    intro h
    rw [List.pairwise_cons] at h
    rw [List.flatMap_cons, List.pairwise_append]
    refine ⟨?_, ih h.2, ?_⟩
    · exact pairwise_of_forall_mem _ (fun a ha b hb => by
        rw [scoreOf_eq (mem_group_scan hsc ha), scoreOf_eq (mem_group_scan hsc hb)])
    · intro a ha b hb
      obtain ⟨k2, hk2, hb2⟩ := List.mem_flatMap.mp hb
      rw [scoreOf_eq (mem_group_scan hsc ha), scoreOf_eq (mem_group_scan hsc hb2)]
      exact h.1 k2 hk2

theorem filter_flatMap_groups {q : Word} {t : Nat} {sc : List (Word × Nat)}
    (hsc : ∀ p ∈ sc, scanTol q t p.1 0 0 0 = some (some p.2)) (s : Nat) :
    ∀ (keys : List Nat), keys.Nodup →
    (s ∈ keys ∨ sc.filter (fun p => decide (p.2 = s)) = []) →
    (keys.flatMap (fun k => (sc.filter (fun p => decide (p.2 = k))).map Prod.fst)).filter
        (fun c => decide (scanTol q t c 0 0 0 = some (some s)))
      = (sc.filter (fun p => decide (p.2 = s))).map Prod.fst := by
  intro keys
  induction keys with
  | nil =>
    intro _ hcomp
    rcases hcomp with hmem | hemp
    · simp at hmem
    · simp [hemp]
  | cons k ks ih =>
    intro hnd hcomp
    rw [List.nodup_cons] at hnd
    rw [List.flatMap_cons, List.filter_append]
    by_cases hk : k = s
    · subst hk
      have h1 : (((sc.filter (fun p => decide (p.2 = k))).map Prod.fst).filter
          (fun c => decide (scanTol q t c 0 0 0 = some (some k))))
          = (sc.filter (fun p => decide (p.2 = k))).map Prod.fst := by
        refine List.filter_eq_self.mpr ?_
        intro a ha
        exact decide_eq_true (mem_group_scan hsc ha)
      have h2 : ((ks.flatMap
          (fun k2 => (sc.filter (fun p => decide (p.2 = k2))).map Prod.fst)).filter
          (fun c => decide (scanTol q t c 0 0 0 = some (some k)))) = [] := by
        refine List.filter_eq_nil_iff.mpr ?_
        intro a ha hdec
        obtain ⟨k2, hk2, ha2⟩ := List.mem_flatMap.mp ha
        have e1 : scanTol q t a 0 0 0 = some (some k2) := mem_group_scan hsc ha2
        have e2 : scanTol q t a 0 0 0 = some (some k) := of_decide_eq_true hdec
        rw [e1] at e2
        have e3 : k2 = k := Option.some.inj (Option.some.inj e2)
        exact hnd.1 (e3 ▸ hk2)
      rw [h1, h2, List.append_nil]
    · have h1 : (((sc.filter (fun p => decide (p.2 = k))).map Prod.fst).filter
          (fun c => decide (scanTol q t c 0 0 0 = some (some s)))) = [] := by
        refine List.filter_eq_nil_iff.mpr ?_
        intro a ha hdec
        have e1 := mem_group_scan hsc ha
        have e2 : scanTol q t a 0 0 0 = some (some s) := of_decide_eq_true hdec
        rw [e1] at e2
        exact hk (Option.some.inj (Option.some.inj e2))
      rw [h1, List.nil_append]
      refine ih hnd.2 ?_
      rcases hcomp with hmem | hemp
      · rcases List.mem_cons.mp hmem with he | hmem
        · exact absurd he.symm hk
        · exact Or.inl hmem
      · exact Or.inr hemp

theorem count_eq_one_of_nodup_mem :
    ∀ {V : List Word} {w : Word}, V.Nodup → w ∈ V → V.count w = 1 := by
  intro V
  induction V with
  | nil => intro w _ hw; simp at hw
  | cons u rest ih =>
    intro w hnd hw
    rw [List.nodup_cons] at hnd
    rw [List.count_cons]
    rcases List.mem_cons.mp hw with he | hm
    · subst he
      rw [List.count_eq_zero.mpr hnd.1]
      simp
    · have hne : w ≠ u := fun he => hnd.1 (he ▸ hm)
      have hne2 : ¬(u = w) := fun h => hne h.symm
      rw [ih hnd.2 hm]
      simp [hne2]

/-- C1 (amended): duplicate vocabulary words are preserved as separate
index-bucket entries (a word of multiplicity `m` in the vocabulary
occurs `m` times in its bucket), but duplication changes candidate
admission: a word is returned by `getAllSearchCandidates` exactly when
the query has at least one distinct letter and the word's multiplicity
times its number of satisfied distinct query letters equals the number
of distinct query letters — so a duplicated word satisfying every query
letter is excluded, contrary to the original claim. -/
theorem c1_duplicate_admission_law (V : List Word) (q w : Word) (L : Char) (n : Nat) :
    (lookupBucket (FuzzySearcher.mk' V).allWords (L, n)).count w
      = (if L ∈ w ∧ n = w.count L then V.count w else 0)
    ∧ (w ∈ ((FuzzySearcher.mk' V).getAllSearchCandidates q).2 ↔
        (1 ≤ numDistinct q ∧ V.count w * satisfied w q = numDistinct q)) :=
  ⟨count_lookupBucket_mk' V L n w, mem_getAllSearchCandidates_iff V q w⟩

/-- C1 counterexample: the word "ab" is a candidate for query "a" when
it occurs once in the vocabulary, but is excluded from the candidate
set (and from the search results) when it is duplicated — duplication
does change behaviour, refuting the claim. -/
theorem c1_duplication_counterexample :
    ['a', 'b'] ∈ ((FuzzySearcher.mk' [['a', 'b']]).getAllSearchCandidates ['a']).2
    ∧ ['a', 'b'] ∉ ((FuzzySearcher.mk' [['a', 'b'], ['a', 'b']]).getAllSearchCandidates ['a']).2
    ∧ ((FuzzySearcher.mk' [['a', 'b'], ['a', 'b']]).search ['a']).2 = some [] := by
  decide

/-- C2 (amended): for a duplicate-free vocabulary, a word of the
vocabulary, and a non-empty query, membership in the candidate set is
exactly the per-letter frequency pre-filter: the word is returned by
`getAllSearchCandidates` iff for every distinct query letter its
occurrence count in the word is at least its count in the query. -/
theorem c2_candidate_iff_letter_counts (V : List Word) (q w : Word)
    (hnd : V.Nodup) (hw : w ∈ V) (hq : q ≠ []) :
    w ∈ ((FuzzySearcher.mk' V).getAllSearchCandidates q).2
      ↔ satisfiesAllLetters w q = true := by
  rw [mem_getAllSearchCandidates_iff]
  have hm : V.count w = 1 := count_eq_one_of_nodup_mem hnd hw
  have hk : 1 ≤ numDistinct q := numDistinct_pos hq
  rw [hm, Nat.one_mul]
  unfold satisfied numDistinct satisfiesAllLetters
  constructor
  · rintro ⟨_, h2⟩
    exact List.all_eq_true.mpr (List.countP_eq_length.mp h2)
  · intro hall
    exact ⟨hk, List.countP_eq_length.mpr (List.all_eq_true.mp hall)⟩

theorem c2_candidate_iff_letter_counts_witness :
    List.Nodup [(['a', 'b'] : Word)]
    ∧ (['a', 'b'] : Word) ∈ [(['a', 'b'] : Word)]
    ∧ (['a'] : Word) ≠ []
    ∧ ((['a', 'b'] : Word) ∈ ((FuzzySearcher.mk' [['a', 'b']]).getAllSearchCandidates ['a']).2
        ↔ satisfiesAllLetters ['a', 'b'] ['a'] = true) :=
  ⟨by decide, by decide, by decide,
    c2_candidate_iff_letter_counts [['a', 'b']] ['a'] ['a', 'b']
      (by decide) (by decide) (by decide)⟩

/-- C2 counterexample: with the duplicated vocabulary ["ab", "ab"] and
query "ax", the word "ab" is admitted although it has no 'x' at all
(two credits from the letter 'a' alone equal the two distinct query
letters); and for the empty query no word is admitted although the
per-letter condition is vacuously true — both directions of the claimed
equivalence fail as stated. -/
theorem c2_prefilter_counterexample :
    (['a', 'b'] ∈ ((FuzzySearcher.mk' [['a', 'b'], ['a', 'b']]).getAllSearchCandidates
        ['a', 'x']).2
      ∧ (['a', 'b'] : Word).count 'x' < (['a', 'x'] : Word).count 'x')
    ∧ (((FuzzySearcher.mk' [['a']]).getAllSearchCandidates []).2 = []
      ∧ satisfiesAllLetters ['a'] [] = true) := by
  decide

/-- C3: index-construction postcondition.  After construction, a word
is in the bucket keyed `(L, n)` iff it is a vocabulary word containing
`L` exactly `n` times with `n ≥ 1` (hence it is in no other bucket for
`L`), and the max-count entry for `L` is the maximum occurrence count
of `L` over the vocabulary, with absent letters reading as 0. -/
theorem c3_index_postcondition (V : List Word) (L : Char) (n : Nat) (w : Word) :
    (w ∈ (FuzzySearcher.mk' V).bucketD (L, n) ↔ (w ∈ V ∧ w.count L = n ∧ 1 ≤ n))
    ∧ (FuzzySearcher.mk' V).hval L = V.foldl (fun a u => max a (u.count L)) 0 := by
  constructor
  · unfold FuzzySearcher.bucketD
    rw [mk'_bucket, List.mem_filter]
    constructor
    · rintro ⟨h1, h2⟩
      have h3 := of_decide_eq_true h2
      refine ⟨h1, h3.2.symm, ?_⟩
      have h4 := List.count_pos_iff.mpr h3.1
      omega
    · rintro ⟨h1, h2, h3⟩
      refine ⟨h1, decide_eq_true ⟨?_, h2.symm⟩⟩
      have h4 : 0 < w.count L := by omega
      exact List.count_pos_iff.mp h4
  · exact mk'_hval V L

/-- C4: the tolerance-scored filter with tolerance 0 on candidates
["three", "there", "theme", "her"] and query "thr" returns exactly
["three"]. -/
theorem c4_tolerance_zero_example :
    FuzzySearcher.lessFuzzyFilter
      [['t', 'h', 'r', 'e', 'e'], ['t', 'h', 'e', 'r', 'e'],
       ['t', 'h', 'e', 'm', 'e'], ['h', 'e', 'r']]
      ['t', 'h', 'r'] 0 = some [['t', 'h', 'r', 'e', 'e']] := by
  decide

/-- C5: whenever `lessFuzzyFilter` returns a list, that list is ordered
by non-decreasing mismatch score, and for every score `s` the sublist
of results whose scan passes with score `s` is exactly the sublist of
the input candidates passing with score `s`, in candidate-iteration
order — score groups are emitted in ascending score order with each
group's internal order preserved. -/
theorem c5_ranking_monotone_stable (cs : List Word) (q : Word) (t s : Nat)
    (res : List Word) (h : FuzzySearcher.lessFuzzyFilter cs q t = some res) :
    res.Pairwise (fun a b => scoreOf q t a ≤ scoreOf q t b)
    ∧ res.filter (fun c => decide (scanTol q t c 0 0 0 = some (some s)))
      = cs.filter (fun c => decide (scanTol q t c 0 0 0 = some (some s))) := by
  unfold FuzzySearcher.lessFuzzyFilter at h
  cases hsc : scoredCandidates cs q t with
  | none =>
    rw [hsc] at h
    exact Option.noConfusion h
  | some sc =>
    rw [hsc, Option.map_some'] at h
    have hres := Option.some.inj h
    subst hres
    have hscan := scoredCandidates_scan hsc
    constructor
    · exact pairwise_groups hscan _ (pairwise_sortNats _)
    · rw [scoredCandidates_filter_eq hsc s]
      refine filter_flatMap_groups hscan s _
        (nodup_sortNats (nodup_firstDistinct _)) ?_
      by_cases hmem : s ∈ sc.map Prod.snd
      · exact Or.inl ((mem_sortNats _ _).mpr ((mem_firstDistinct _ _).mpr hmem))
      · refine Or.inr (List.filter_eq_nil_iff.mpr ?_)
        intro p hp hdec
        exact hmem (List.mem_map.mpr ⟨p, hp, of_decide_eq_true hdec⟩)

theorem c5_ranking_monotone_stable_witness :
    (FuzzySearcher.lessFuzzyFilter [['b', 'a'], ['a']] ['a'] 2
      = some [['a'], ['b', 'a']])
    ∧ ((List.Pairwise (fun a b => scoreOf ['a'] 2 a ≤ scoreOf ['a'] 2 b)
        [['a'], ['b', 'a']])
      ∧ ([['a'], ['b', 'a']] : List Word).filter
          (fun c => decide (scanTol ['a'] 2 c 0 0 0 = some (some 1)))
        = ([['b', 'a'], ['a']] : List Word).filter
            (fun c => decide (scanTol ['a'] 2 c 0 0 0 = some (some 1)))) :=
  ⟨by decide,
    c5_ranking_monotone_stable [['b', 'a'], ['a']] ['a'] 2 1 [['a'], ['b', 'a']]
      (by decide)⟩

/-- C6 (amended): a call to `search` leaves the buckets (`allWords`)
and the settings structurally unchanged, and leaves every lookup of the
max-count table unchanged (the table stays extensionally equal as a
letter-to-count map); however the max-count defaultdict may gain
explicit zero entries for query letters it had never seen, so the
stored table need not be structurally identical, contrary to the
original "exactly equal" claim. -/
theorem c6_query_frame (E : FuzzySearcher) (q : Word) :
    (E.search q).1.allWords = E.allWords
    ∧ (E.search q).1.settings_tolerance = E.settings_tolerance
    ∧ ∀ L, (E.search q).1.hval L = E.hval L := by
  rw [search_fst]
  refine ⟨rfl, rfl, fun L => ?_⟩
  simp only [FuzzySearcher.getAllSearchCandidates, FuzzySearcher.hval]
  exact lookupMax_itemsFold_fst E.allWords (counterItems q) _ L

/-- C6 counterexample: on the engine built from ["a"], searching for
"b" inserts the explicit zero entry ('b', 0) into the max-count table,
so the table after the call is not exactly equal to the table before
it. -/
theorem c6_mutation_counterexample :
    ((FuzzySearcher.mk' [['a']]).search ['b']).1.highestLetterInWordCount
      ≠ (FuzzySearcher.mk' [['a']]).highestLetterInWordCount := by
  decide

/-- C7: no execution of `search` ever performs an out-of-bounds query
lookup: in the model, where an out-of-bounds `searchLetters[upto]`
access yields `none`, `search` always returns an actual result list. -/
theorem c7_no_out_of_bounds (E : FuzzySearcher) (q : Word) :
    ((E.search q).2).isSome = true := by
  rw [search_snd]
  cases q with
  | nil =>
    cases E.settings_tolerance with
    | none => rfl
    | some t => rfl
  | cons ch rest =>
    have hq : (ch :: rest : Word) ≠ [] := by simp
    cases E.settings_tolerance with
    | none => exact filter_isSome hq _
    | some t => exact lessFuzzyFilter_isSome hq t _

/-- C8: `search` first computes the candidates, then returns the exact
filter of them exactly when no tolerance is configured, and otherwise
the tolerance-scored filter at the configured tolerance; a freshly
constructed engine has tolerance 5 configured, so the tolerance path is
the default. -/
theorem c8_search_orchestration (E : FuzzySearcher) (q : Word) (V : List Word) :
    (E.search q
      = match E.settings_tolerance with
        | none => ((E.getAllSearchCandidates q).1,
            FuzzySearcher.filter (E.getAllSearchCandidates q).2 q)
        | some t => ((E.getAllSearchCandidates q).1,
            FuzzySearcher.lessFuzzyFilter (E.getAllSearchCandidates q).2 q t))
    ∧ (FuzzySearcher.mk' V).settings_tolerance = some 5 := by
  constructor
  · simp only [FuzzySearcher.search]
    rw [show (E.getAllSearchCandidates q).1.settings_tolerance
        = E.settings_tolerance from rfl]
  · exact mk'_settings V

/-- C9: degenerate inputs yield empty results rather than errors: the
engine built from the empty vocabulary returns the empty list for every
query, and on every engine the empty query yields an empty candidate
set and an empty search result. -/
theorem c9_degenerate_empty :
    (∀ q : Word, ((FuzzySearcher.mk' []).search q).2 = some [])
    ∧ (∀ E : FuzzySearcher, (E.getAllSearchCandidates []).2 = []
        ∧ (E.search []).2 = some []) := by
  constructor
  · intro q
    rw [search_snd, show (FuzzySearcher.mk' []).settings_tolerance = some 5 from rfl,
      getAll_mkNil_snd]
    rfl
  · intro E
    refine ⟨rfl, ?_⟩
    rw [search_snd]
    cases E.settings_tolerance with
    | none => rfl
    | some t => rfl

/-- C10 (amended): the public static filters do raise on the empty
query, but only when some candidate is a non-empty word: whenever the
candidate list contains at least one non-empty word, `filter` and
`lessFuzzyFilter` called with the empty query hit the out-of-bounds
read of the query character at index 0 (modelled as `none`) instead of
returning a list. -/
theorem c10_empty_query_raises (cs : List Word) (t : Nat)
    (h : ∃ c ∈ cs, c ≠ []) :
    FuzzySearcher.filter cs [] = none
    ∧ FuzzySearcher.lessFuzzyFilter cs [] t = none := by
  induction cs with
  | nil =>
    obtain ⟨c, hc, _⟩ := h
    simp at hc
  | cons c rest ih =>
    cases c with
    | nil =>
      have h2 : ∃ c ∈ rest, c ≠ [] := by
        obtain ⟨c2, hc2, hne⟩ := h
        rcases List.mem_cons.mp hc2 with he | hm
        · exact absurd he hne
        · exact ⟨c2, hm, hne⟩
      obtain ⟨hf, hl⟩ := ih h2
      constructor
      · simp only [FuzzySearcher.filter]
        exact hf
      · simp only [FuzzySearcher.lessFuzzyFilter, scoredCandidates]
        exact hl
    | cons ch ctail =>
      exact ⟨rfl, rfl⟩

theorem c10_empty_query_raises_witness :
    (∃ c ∈ [(['a'] : Word)], c ≠ [])
    ∧ (FuzzySearcher.filter [['a']] [] = none
       ∧ FuzzySearcher.lessFuzzyFilter [['a']] [] 0 = none) :=
  ⟨⟨['a'], by decide, by decide⟩,
    c10_empty_query_raises [['a']] 0 ⟨['a'], by decide, by decide⟩⟩

/-- C10 counterexample: the non-empty candidate list containing only
the empty word never reads a query character, so both filters return an
empty list instead of raising — the claim does not hold for every
non-empty candidate iterable. -/
theorem c10_counterexample_empty_word :
    FuzzySearcher.filter [([] : Word)] [] = some []
    ∧ FuzzySearcher.lessFuzzyFilter [([] : Word)] [] 0 = some [] := by
  decide

end FuzzySearch

